import Mathlib


/-!
Verification of the rusdle word-guessing game core (src/src/game.rs):
the word corpus, the guess evaluator with duplicate-letter accounting,
and the per-session state machine.

Rust values are embedded shallowly: `String` / `Vec<char>` become
`List Char`, the `u8` clue codes become `Nat` constants, the
`HashMap<char, u8>` clue map becomes an association list, and fallible
indexing is expressed with `Option`.
-/

set_option maxRecDepth 8000

namespace Rusdle

/-! ## Clue codes (game.rs, `RES_*` constants) -/

def RES_DEFAULT : Nat := 0

def RES_WRONG : Nat := 1

def RES_PRESENT : Nat := 2

def RES_CORRECT : Nat := 3

/-! ## ASCII case conversion

Rust's `char::to_ascii_uppercase` maps the bytes of `a`..`z` down by 32
and leaves every other character unchanged; `str::to_lowercase` performs
Unicode lowercasing, which on the ASCII repertoire used by the corpus
coincides with mapping `A`..`Z` up by 32. -/

def toAsciiUppercase (c : Char) : Char :=
  if 97 ≤ c.toNat ∧ c.toNat ≤ 122 then Char.ofNat (c.toNat - 32) else c

def toAsciiLowercase (c : Char) : Char :=
  if 65 ≤ c.toNat ∧ c.toNat ≤ 90 then Char.ofNat (c.toNat + 32) else c

/-! ## Word corpus (game.rs, `WordSet`) -/

structure WordSet where
  wordlist : List (List Char)
  valid_guesses : List (List Char)

/-- `WordSet::is_valid`: case-insensitive membership in either list. -/
def WordSet.is_valid (ws : WordSet) (word : List Char) : Bool :=
  let needle := word.map toAsciiLowercase
  ws.wordlist.contains needle || ws.valid_guesses.contains needle

/-- Rust's `as usize` conversion from `i64` on a 64-bit host: a
two's-complement reinterpretation, i.e. reduction modulo 2^64. -/
def i64ToUsize (i : Int) : Nat := (i % (2 : Int) ^ 64).toNat

/-- `WordSet::word_of_the_day`, parameterised by the two timestamps the
source obtains from the clock: `todaySec` is the Unix timestamp of local
midnight of the current date and `epochSec` that of local midnight of
2021-06-19.  The source computes
`(today.timestamp() - epoch.timestamp()) / 86400` with Rust `i64`
division (truncation toward zero), converts it with `as usize`, and
reduces modulo the word-list length. -/
def WordSet.word_of_the_day (ws : WordSet) (todaySec epochSec : Int) :
    Option (List Char) :=
  let idx : Int := Int.tdiv (todaySec - epochSec) 86400
  (ws.wordlist.get? (i64ToUsize idx % ws.wordlist.length)).map
    (fun w => w.map toAsciiUppercase)

/-- The daily-word selection as the specification words it: the index is
`(todayUnixSec − epochUnixSec) ÷ 86400` as *floored* integer division of
signed seconds, and the word is `solutions[index mod |solutions|]`,
uppercased.  Kept separate from `WordSet.word_of_the_day` so the two can
be compared. -/
def specWordOfTheDay (ws : WordSet) (todaySec epochSec : Int) :
    Option (List Char) :=
  let idx : Int := Int.fdiv (todaySec - epochSec) 86400
  (ws.wordlist.get? (idx % (ws.wordlist.length : Int)).toNat).map
    (fun w => w.map toAsciiUppercase)

/-! ## Guess evaluator (game.rs, `RusdleState::compare_guess`) -/

/-- Modelled from the spec: `compare_guess` calls the crate-root helper
`MutVecExt::remove_item`, whose declaration is not under `src/`.  Per
the spec's pass 2, it removes one occurrence of the item from the pool
and reports whether the item was found ("emit `Present` and remove one
occurrence of `guess[i]` from the pool"). -/
def removeItem (xs : List Char) (c : Char) : Bool × List Char :=
  (xs.contains c, xs.erase c)

/-- Pass 1 of `compare_guess`: the pool (`unmatched`) of target letters
at positions where target and guess disagree. -/
def unmatchedOf (target guess : List Char) : List Char :=
  (target.zip guess).filterMap
    (fun p => if p.1 ≠ p.2 then some p.1 else none)

/-- Pass 2 of `compare_guess`: walk the guess left to right with its
index, emitting `RES_CORRECT` on a positional match and otherwise
consuming the pool.  The source indexes `self.target[i]`, which is
always in bounds for the five-by-five words it is called on; the
out-of-range lookup is rendered with `List.get?`. -/
def comparePass (target : List Char) : Nat → List Char → List Char → List Nat
  | _, _, [] => []
  | i, pool, c :: cs =>
    if target.get? i = some c then
      RES_CORRECT :: comparePass target (i + 1) pool cs
    else
      match removeItem pool c with
      | (true, pool2) => RES_PRESENT :: comparePass target (i + 1) pool2 cs
      | (false, _) => RES_WRONG :: comparePass target (i + 1) pool cs

/-- `RusdleState::compare_guess` as a function of the target and the
guess (the only state it reads is `self.target`). -/
def compareGuess (target guess : List Char) : List Nat :=
  comparePass target 0 (unmatchedOf target guess) guess

/-- Proof-side reformulation of pass 2 that recurses on the suffix of
the target alongside the guess; `comparePass_eq_zipPass` connects it to
the indexed form. -/
def zipPass : List Char → List Char → List Char → List Nat
  | _, _, [] => []
  | [], pool, c :: cs =>
    if pool.contains c then RES_PRESENT :: zipPass [] (pool.erase c) cs
    else RES_WRONG :: zipPass [] pool cs
  | t :: ts, pool, c :: cs =>
    if t = c then RES_CORRECT :: zipPass ts pool cs
    else if pool.contains c then RES_PRESENT :: zipPass ts (pool.erase c) cs
    else RES_WRONG :: zipPass ts pool cs

/-! ## Session state (game.rs, `RusdleState`) -/

structure RusdleState where
  words : WordSet
  target : List Char
  entry : List Char
  last_error : Option (List Char)
  guesses : List (List Char × List Nat)
  clues : List (Char × Nat)

inductive GameInput where
  | Delete
  | Submit
  | Input (c : Char)

/-- ASCII code of the single-quote character, used to build the error
message without an apostrophe literal. -/
def quoteChar : Char := Char.ofNat 39

/-- The text of `format!("Word '{}' is not valid.", self.entry)`. -/
def errorMessage (entry : List Char) : List Char :=
  "Word ".toList ++ [quoteChar] ++ entry ++ [quoteChar] ++ " is not valid.".toList

/-- `self.clues.entry(c).or_insert(r)` followed by
`if r > *clue { *clue = r }`: insert `(c, r)` if `c` is absent,
otherwise raise the stored clue to `r` when `r` is larger. -/
def updateClue : List (Char × Nat) → Char → Nat → List (Char × Nat)
  | [], c, r => [(c, r)]
  | (c0, v) :: rest, c, r =>
    if c0 = c then (c0, if r > v then r else v) :: rest
    else (c0, v) :: updateClue rest c r

/-- The `for_each` over `guess.chars().zip(result)` in `process_guess`. -/
def updateClues (m : List (Char × Nat)) (l : List (Char × Nat)) :
    List (Char × Nat) :=
  l.foldl (fun acc p => updateClue acc p.1 p.2) m

/-- `RusdleState::compare_guess` with its receiver: the source takes
`&mut self` but writes no field, so the translation returns the clue
array together with the untouched state. -/
def compareGuessM (s : RusdleState) (guess : List Char) :
    List Nat × RusdleState :=
  (compareGuess s.target guess, s)

/-- `RusdleState::process_guess`. -/
def process_guess (s : RusdleState) : RusdleState :=
  if ¬ (s.words.is_valid s.entry) then
    { s with last_error := some (errorMessage s.entry) }
  else
    let guess := s.entry
    let res := compareGuessM { s with last_error := none } guess
    let s1 := res.2
    { s1 with
      clues := updateClues s1.clues (guess.zip res.1),
      guesses := s1.guesses ++ [(guess, res.1)],
      entry := [] }

/-- `RusdleState::handle_input`. -/
def handle_input (s : RusdleState) (input : GameInput) : RusdleState :=
  match input with
  | GameInput.Input c =>
    if s.entry.length < 5 then
      { s with entry := s.entry ++ [toAsciiUppercase c] }
    else s
  | GameInput.Delete =>
    if s.entry.length > 0 then { s with entry := s.entry.dropLast } else s
  | GameInput.Submit =>
    if s.entry.length = 5 then process_guess s else s

/-- `RusdleState::is_win`. -/
def is_win (s : RusdleState) : Bool :=
  match s.guesses.getLast? with
  | some (_, r) => r == List.replicate 5 RES_CORRECT
  | none => false

/-- `RusdleState::is_over`. -/
def is_over (s : RusdleState) : Bool :=
  s.guesses.length == 6 || is_win s

/-- `RusdleState::new_with_target` (the source also asserts
`words.is_valid(target)`; the assertion creates no state). -/
def new_with_target (words : WordSet) (target : List Char) : RusdleState :=
  { words := words
    target := target
    entry := []
    last_error := none
    guesses := []
    clues := [] }

/-- Feed a list of inputs to the session, left to right. -/
def runInputs (s : RusdleState) (l : List GameInput) : RusdleState :=
  l.foldl handle_input s

/-- States reachable from `init` by any sequence of inputs. -/
inductive Reach (init : RusdleState) : RusdleState → Prop
  | refl : Reach init init
  | step {s : RusdleState} (i : GameInput) :
      Reach init s → Reach init (handle_input s i)

/-- States reachable from `init` when the host delivers an input only
while `is_over` is false, as the program's event loop does. -/
inductive GuardedReach (init : RusdleState) : RusdleState → Prop
  | refl : GuardedReach init init
  | step {s : RusdleState} (i : GameInput) :
      GuardedReach init s → is_over s = false →
      GuardedReach init (handle_input s i)

/-! ## Counting and aggregation helpers used by the statements -/

/-- Number of guess positions holding letter `c` whose clue is
`RES_CORRECT` or `RES_PRESENT`. -/
def hitCount (c : Char) : List Char → List Nat → Nat
  | g :: gs, r :: rs =>
    (if g = c ∧ (r = RES_CORRECT ∨ r = RES_PRESENT) then 1 else 0) +
      hitCount c gs rs
  | _, _ => 0

/-- Number of positions where target and guess agree and hold letter `c`. -/
def corrCount (c : Char) : List Char → List Char → Nat
  | t :: ts, g :: gs => (if t = g ∧ g = c then 1 else 0) + corrCount c ts gs
  | _, _ => 0

/-- Number of positions where the guess holds `c` but the target differs. -/
def mismCount (c : Char) : List Char → List Char → Nat
  | t :: ts, g :: gs => (if g = c ∧ t ≠ g then 1 else 0) + mismCount c ts gs
  | _, _ => 0

/-- Number of positions where the target holds `c` but the guess differs. -/
def tMismCount (c : Char) : List Char → List Char → Nat
  | t :: ts, g :: gs => (if t = c ∧ t ≠ g then 1 else 0) + tMismCount c ts gs
  | _, _ => 0

/-- Clue currently recorded for letter `c`; a letter absent from the map
reads as `RES_DEFAULT`, the bottom of the clue order. -/
def cluesVal (m : List (Char × Nat)) (c : Char) : Nat :=
  match m with
  | [] => RES_DEFAULT
  | (c0, v) :: rest => if c0 = c then v else cluesVal rest c

/-- Largest clue attached to letter `c` in one zipped guess/result list. -/
def pairMax (c : Char) : List (Char × Nat) → Nat
  | [] => 0
  | (a, r) :: rest => if a = c then max r (pairMax c rest) else pairMax c rest

/-- Largest clue letter `c` has received over all history records. -/
def historyMax (c : Char) : List (List Char × List Nat) → Nat
  | [] => 0
  | (g, r) :: rest => max (pairMax c (g.zip r)) (historyMax c rest)

/-! ## Concrete corpora and input scripts for witnesses and
counterexamples -/

def demoWords : WordSet :=
  { wordlist := ["noobs".toList], valid_guesses := ["rooty".toList] }

def demoTarget : List Char := "NOOBS".toList

/-- Type the word ROOTY and submit it. -/
def rootyRound : List GameInput :=
  [GameInput.Input 'r', GameInput.Input 'o', GameInput.Input 'o',
   GameInput.Input 't', GameInput.Input 'y', GameInput.Submit]

def threeWords : WordSet :=
  { wordlist := ["aaaaa".toList, "bbbbb".toList, "ccccc".toList]
    valid_guesses := [] }

def rootyFive : List GameInput :=
  [GameInput.Input 'r', GameInput.Input 'o', GameInput.Input 'o',
   GameInput.Input 't', GameInput.Input 'y']

def qFive : List GameInput :=
  [GameInput.Input 'q', GameInput.Input 'q', GameInput.Input 'q',
   GameInput.Input 'q', GameInput.Input 'q']

def sixRounds : List GameInput := (List.replicate 6 rootyRound).flatten

def fortyOneInputs : List GameInput := sixRounds ++ rootyFive

def winRound : List GameInput :=
  [GameInput.Input 'n', GameInput.Input 'o', GameInput.Input 'o',
   GameInput.Input 'b', GameInput.Input 's', GameInput.Submit]



theorem comparePass_eq_zipPass (target : List Char) :
    ∀ (cs : List Char) (i : Nat) (pool : List Char),
      comparePass target i pool cs = zipPass (target.drop i) pool cs := by
  intro cs
  induction cs with
  | nil => intro i pool; cases target.drop i <;> rfl
  | cons c cs ih =>
    intro i pool
    have hget : target.get? i = (target.drop i).head? := by
      rw [List.get?_eq_getElem?, List.head?_drop]
    have htail : target.drop (i + 1) = (target.drop i).tail := by
      rw [List.tail_drop]
    cases hd : target.drop i with
    | nil =>
      have h1 : target.get? i = none := by rw [hget, hd]; rfl
      have h2 : target.drop (i + 1) = [] := by rw [htail, hd]; rfl
      simp only [comparePass, zipPass, h1, removeItem, reduceCtorEq, if_false]
      cases hc : pool.contains c with
      | true => simp [hc, ih (i + 1) (pool.erase c), h2]
      | false => simp [hc, ih (i + 1) pool, h2]
    | cons t ts =>
      have h1 : target.get? i = some t := by rw [hget, hd]; rfl
      have h2 : target.drop (i + 1) = ts := by rw [htail, hd]; rfl
      simp only [comparePass, zipPass, h1, removeItem, Option.some.injEq]
      by_cases htc : t = c
      · simp only [htc, if_true, ih (i + 1) pool, h2]
      · simp only [htc, if_false]
        cases hc : pool.contains c with
        | true => simp [hc, ih (i + 1) (pool.erase c), h2]
        | false => simp [hc, ih (i + 1) pool, h2]

theorem compareGuess_eq_zipPass (target guess : List Char) :
    compareGuess target guess = zipPass target (unmatchedOf target guess) guess := by
  unfold compareGuess
  rw [comparePass_eq_zipPass]
  rfl

theorem unmatchedOf_self : ∀ w : List Char, unmatchedOf w w = [] := by
  intro w
  induction w with
  | nil => rfl
  | cons a w ih =>
    have h : unmatchedOf (a :: w) (a :: w) = unmatchedOf w w := by
      simp [unmatchedOf]
    rw [h, ih]

theorem zipPass_self : ∀ (w pool : List Char),
    zipPass w pool w = List.replicate w.length RES_CORRECT := by
  intro w
  induction w with
  | nil => intro pool; rfl
  | cons a w ih => intro pool; simp [zipPass, List.replicate_succ, ih]

theorem count_pos_of_contains {pool : List Char} {c : Char}
    (h : pool.contains c = true) : 1 ≤ pool.count c := by
  have hm : c ∈ pool := by simpa using h
  exact List.count_pos_iff.mpr hm

theorem count_eq_zero_of_not_contains {pool : List Char} {c : Char}
    (h : pool.contains c = false) : pool.count c = 0 := by
  have hm : c ∉ pool := by simpa using h
  exact List.count_eq_zero.mpr hm

theorem hitCount_zipPass (c : Char) :
    ∀ (cs ts pool : List Char), cs.length ≤ ts.length →
      hitCount c cs (zipPass ts pool cs)
        = corrCount c ts cs + min (mismCount c ts cs) (pool.count c) := by
  intro cs
  induction cs with
  | nil =>
    intro ts pool _
    simp [hitCount, corrCount, mismCount, zipPass]
  | cons g gs ih =>
    intro ts pool h
    cases ts with
    | nil => simp at h
    | cons t ts =>
      have hlen : gs.length ≤ ts.length := by
        simpa using h
      by_cases htg : t = g
      · simp only [zipPass, htg, if_true, hitCount, corrCount, mismCount,
          ih ts pool hlen]
        have h3 : ¬(RES_CORRECT = RES_WRONG) := by decide
        by_cases hgc : g = c
        · simp [hgc, RES_CORRECT, RES_PRESENT]
          omega
        · simp [hgc]
      · simp only [zipPass, htg, if_false]
        cases hp : pool.contains g with
        | true =>
          simp only [hp, if_true, hitCount, corrCount, mismCount,
            ih ts (pool.erase g) hlen]
          by_cases hgc : g = c
          · subst hgc
            have h1 : 1 ≤ pool.count g := count_pos_of_contains hp
            have h2 : (pool.erase g).count g = pool.count g - 1 :=
              List.count_erase_self g pool
            simp [htg, h2, RES_PRESENT, RES_CORRECT]
            omega
          · have h2 : (pool.erase g).count c = pool.count c :=
              List.count_erase_of_ne (fun hcg => hgc hcg.symm) pool
            simp [hgc, h2, fun hcg => hgc (Eq.symm hcg)]
        | false =>
          simp only [hp, if_false, hitCount, corrCount, mismCount,
            ih ts pool hlen]
          by_cases hgc : g = c
          · subst hgc
            have h1 : pool.count g = 0 := count_eq_zero_of_not_contains hp
            simp [htg, h1, RES_WRONG, RES_CORRECT, RES_PRESENT]
          · simp [hgc]

theorem count_unmatchedOf (c : Char) :
    ∀ (ts cs : List Char), (unmatchedOf ts cs).count c = tMismCount c ts cs := by
  intro ts
  induction ts with
  | nil => intro cs; simp [unmatchedOf, tMismCount]
  | cons t ts ih =>
    intro cs
    cases cs with
    | nil => simp [unmatchedOf, tMismCount]
    | cons g gs =>
      by_cases htg : t = g
      · have h : unmatchedOf (t :: ts) (g :: gs) = unmatchedOf ts gs := by
          simp [unmatchedOf, htg]
        rw [h, ih gs]
        simp [tMismCount, htg]
      · have h : unmatchedOf (t :: ts) (g :: gs) = t :: unmatchedOf ts gs := by
          simp [unmatchedOf, htg]
        rw [h, List.count_cons, ih gs]
        simp only [tMismCount]
        by_cases htc : t = c
        · subst htc; simp [htg]; omega
        · have hct : ¬ c = t := fun hh => htc hh.symm
          simp [htc, hct]

theorem count_split_guess (c : Char) :
    ∀ (ts cs : List Char), cs.length ≤ ts.length →
      cs.count c = corrCount c ts cs + mismCount c ts cs := by
  intro ts
  induction ts with
  | nil =>
    intro cs h
    have hnil : cs = [] := List.length_eq_zero.mp (Nat.le_zero.mp h)
    subst hnil
    simp [corrCount, mismCount]
  | cons t ts ih =>
    intro cs h
    cases cs with
    | nil => simp [corrCount, mismCount]
    | cons g gs =>
      have hlen : gs.length ≤ ts.length := by simpa using h
      simp only [corrCount, mismCount, List.count_cons, ih gs hlen]
      by_cases htg : t = g
      · subst htg
        by_cases htc : t = c
        · subst htc; simp; omega
        · have hct : ¬ c = t := fun hh => htc hh.symm
          simp [htc, hct]
      · by_cases hgc : g = c
        · subst hgc
          have hgt : ¬ g = t := fun hh => htg hh.symm
          simp [htg, hgt]; omega
        · have hcg : ¬ c = g := fun hh => hgc hh.symm
          simp [hgc, hcg, htg]

theorem count_split_target (c : Char) :
    ∀ (ts cs : List Char), ts.length ≤ cs.length →
      ts.count c = corrCount c ts cs + tMismCount c ts cs := by
  intro ts
  induction ts with
  | nil => intro cs h; simp [corrCount, tMismCount]
  | cons t ts ih =>
    intro cs h
    cases cs with
    | nil => simp at h
    | cons g gs =>
      have hlen : ts.length ≤ gs.length := by simpa using h
      simp only [corrCount, tMismCount, List.count_cons, ih gs hlen]
      by_cases htg : t = g
      · subst htg
        by_cases htc : t = c
        · subst htc; simp; omega
        · have hct : ¬ c = t := fun hh => htc hh.symm
          simp [htc, hct]
      · by_cases htc : t = c
        · subst htc
          have hgt : ¬ g = t := fun hh => htg hh.symm
          have htg2 : ¬ t = g := htg
          simp [htg2, hgt]; omega
        · have hct : ¬ c = t := fun hh => htc hh.symm
          simp [htc, hct, htg]

/-- Claim C1: for five-letter target and guess and every letter c, the number
of guess positions holding c whose clue is Correct or Present equals
min(count of c in guess, count of c in target). -/
theorem evaluate_letter_accounting (target guess : List Char) (c : Char)
    (ht : target.length = 5) (hg : guess.length = 5) :
    hitCount c guess (compareGuess target guess)
      = min (guess.count c) (target.count c) := by
  have h1 := hitCount_zipPass c guess target (unmatchedOf target guess)
    (by omega)
  have h2 := count_unmatchedOf c target guess
  have h3 := count_split_guess c target guess (by omega)
  have h4 := count_split_target c target guess (by omega)
  rw [compareGuess_eq_zipPass, h1, h2]
  omega

theorem evaluate_letter_accounting_witness :
    ("NOOBS".toList.length = 5) ∧ ("IGLOO".toList.length = 5) ∧
      hitCount 'O' "IGLOO".toList (compareGuess "NOOBS".toList "IGLOO".toList)
        = min ("IGLOO".toList.count 'O') ("NOOBS".toList.count 'O') :=
  ⟨by decide, by decide,
    evaluate_letter_accounting "NOOBS".toList "IGLOO".toList 'O'
      (by decide) (by decide)⟩

/-- Claim C7: evaluating any five-letter word against itself yields five
Correct clues. -/
theorem evaluate_self_match (w : List Char) (hw : w.length = 5) :
    compareGuess w w
      = [RES_CORRECT, RES_CORRECT, RES_CORRECT, RES_CORRECT, RES_CORRECT] := by
  rw [compareGuess_eq_zipPass, unmatchedOf_self, zipPass_self, hw]
  rfl

theorem evaluate_self_match_witness :
    ("MATCH".toList.length = 5) ∧
      compareGuess "MATCH".toList "MATCH".toList
        = [RES_CORRECT, RES_CORRECT, RES_CORRECT, RES_CORRECT, RES_CORRECT] :=
  ⟨by decide, evaluate_self_match "MATCH".toList (by decide)⟩

/-- Claim C8: guess ELIDE against target FRAME scores Wrong on the four
leading letters and Correct on the trailing E: the positional E is
excluded from the pool, so the earlier E finds no unmatched E. -/
theorem evaluate_frame_elide :
    compareGuess "FRAME".toList "ELIDE".toList
      = [RES_WRONG, RES_WRONG, RES_WRONG, RES_WRONG, RES_CORRECT] := by
  decide

theorem zipPass_all_correct :
    ∀ (cs ts pool : List Char), cs.length = ts.length →
      zipPass ts pool cs = List.replicate cs.length RES_CORRECT → cs = ts := by
  intro cs
  induction cs with
  | nil =>
    intro ts pool hl _
    cases ts with
    | nil => rfl
    | cons t ts => simp at hl
  | cons c cs ih =>
    intro ts pool hl h
    cases ts with
    | nil => simp at hl
    | cons t ts =>
      have hl2 : cs.length = ts.length := by simpa using hl
      by_cases htc : t = c
      · subst htc
        simp only [zipPass, if_true, List.length_cons, List.replicate_succ] at h
        have h2 := (List.cons.injEq _ _ _ _).mp h
        rw [ih ts pool hl2 h2.2]
      · exfalso
        simp only [zipPass, htc, if_false, List.length_cons,
          List.replicate_succ] at h
        by_cases hp : pool.contains c
        · simp only [hp, if_true] at h
          have h2 := (List.cons.injEq _ _ _ _).mp h
          exact absurd h2.1 (by decide)
        · simp only [hp, if_false] at h
          have h2 := (List.cons.injEq _ _ _ _).mp h
          exact absurd h2.1 (by decide)

theorem process_guess_eq (s : RusdleState) :
    process_guess s =
      if s.words.is_valid s.entry then
        { s with
          last_error := none,
          clues := updateClues s.clues
            (s.entry.zip (compareGuess s.target s.entry)),
          guesses := s.guesses ++ [(s.entry, compareGuess s.target s.entry)],
          entry := [] }
      else { s with last_error := some (errorMessage s.entry) } := by
  unfold process_guess compareGuessM
  by_cases h : s.words.is_valid s.entry <;> simp [h]

theorem guesses_length_step (s : RusdleState) (i : GameInput) :
    (handle_input s i).guesses.length ≤ s.guesses.length + 1 := by
  cases i with
  | Input c => simp only [handle_input]; split_ifs <;> simp
  | Delete => simp only [handle_input]; split_ifs <;> simp
  | Submit =>
    simp only [handle_input]
    split_ifs with h1
    · rw [process_guess_eq]
      split_ifs with h2 <;> simp
    · simp

theorem reach_target_and_guesses {ws : WordSet} {t : List Char}
    {s : RusdleState} (h : Reach (new_with_target ws t) s) :
    s.target = t ∧
      ∀ gr ∈ s.guesses, gr.2 = compareGuess t gr.1 ∧ gr.1.length = 5 := by
  induction h with
  | refl =>
    refine ⟨rfl, ?_⟩
    intro gr hgr
    simp [new_with_target] at hgr
  | step i hr ih =>
    obtain ⟨hT, hG⟩ := ih
    rename_i s'
    cases i with
    | Input c =>
      simp only [handle_input]
      split_ifs <;> exact ⟨hT, hG⟩
    | Delete =>
      simp only [handle_input]
      split_ifs <;> exact ⟨hT, hG⟩
    | Submit =>
      simp only [handle_input]
      split_ifs with h1
      · rw [process_guess_eq]
        split_ifs with h2
        · refine ⟨hT, ?_⟩
          intro gr hgr
          simp only [List.mem_append, List.mem_singleton] at hgr
          cases hgr with
          | inl hin => exact hG gr hin
          | inr hnew => subst hnew; simp [hT, h1]
        · exact ⟨hT, hG⟩
      · exact ⟨hT, hG⟩

theorem reach_entry_length {ws : WordSet} {t : List Char} {s : RusdleState}
    (h : Reach (new_with_target ws t) s) : s.entry.length ≤ 5 := by
  induction h with
  | refl => simp [new_with_target]
  | step i hr ih =>
    rename_i s'
    cases i with
    | Input c =>
      simp only [handle_input]
      split_ifs with h1
      · simp; omega
      · exact ih
    | Delete =>
      simp only [handle_input]
      split_ifs with h1
      · simp [List.length_dropLast]; omega
      · exact ih
    | Submit =>
      simp only [handle_input]
      split_ifs with h1
      · rw [process_guess_eq]
        split_ifs with h2 <;> simp [ih]
      · exact ih

theorem reach_runInputs (s : RusdleState) :
    ∀ (l : List GameInput) (s' : RusdleState), Reach s s' →
      Reach s (runInputs s' l) := by
  intro l
  induction l with
  | nil => intro s' h; exact h
  | cons i l ih =>
    intro s' h
    exact ih (handle_input s' i) (Reach.step i h)

theorem cluesVal_updateClue (m : List (Char × Nat)) (a : Char) (r : Nat)
    (c : Char) :
    cluesVal (updateClue m a r) c
      = if a = c then max (cluesVal m c) r else cluesVal m c := by
  induction m with
  | nil =>
    by_cases hac : a = c <;>
      simp [updateClue, cluesVal, hac, RES_DEFAULT, Nat.max_def]
  | cons p rest ih =>
    obtain ⟨c0, v⟩ := p
    by_cases h0a : c0 = a
    · subst h0a
      by_cases hac : c0 = c
      · subst hac
        simp [updateClue, cluesVal, Nat.max_def]
        split_ifs <;> omega
      · simp [updateClue, cluesVal, hac]
    · by_cases h0c : c0 = c
      · subst h0c
        have hac : ¬ a = c0 := fun hh => h0a hh.symm
        simp [updateClue, cluesVal, h0a, hac]
      · simp [updateClue, cluesVal, h0a, h0c, ih]

theorem cluesVal_updateClues (l : List (Char × Nat)) :
    ∀ (m : List (Char × Nat)) (c : Char),
      cluesVal (updateClues m l) c = max (cluesVal m c) (pairMax c l) := by
  induction l with
  | nil => intro m c; simp [updateClues, pairMax]
  | cons p rest ih =>
    intro m c
    obtain ⟨a, r⟩ := p
    have hstep : updateClues m ((a, r) :: rest)
        = updateClues (updateClue m a r) rest := rfl
    rw [hstep, ih (updateClue m a r) c, cluesVal_updateClue]
    by_cases hac : a = c
    · simp [pairMax, hac]
      omega
    · simp [pairMax, hac]

theorem historyMax_append (c : Char) (l : List (List Char × List Nat))
    (g : List Char) (r : List Nat) :
    historyMax c (l ++ [(g, r)]) = max (historyMax c l) (pairMax c (g.zip r)) := by
  induction l with
  | nil => simp [historyMax]
  | cons p rest ih =>
    obtain ⟨g0, r0⟩ := p
    simp only [List.cons_append, historyMax, List.append_eq]
    rw [ih]
    omega

theorem clues_step_mono (s : RusdleState) (i : GameInput) (c : Char) :
    cluesVal s.clues c ≤ cluesVal (handle_input s i).clues c := by
  cases i with
  | Input c0 => simp only [handle_input]; split_ifs <;> simp
  | Delete => simp only [handle_input]; split_ifs <;> simp
  | Submit =>
    simp only [handle_input]
    split_ifs with h1
    · rw [process_guess_eq]
      split_ifs with h2
      · simp [cluesVal_updateClues]
      · simp
    · simp

theorem reach_clues_eq_historyMax {ws : WordSet} {t : List Char}
    {s : RusdleState} (h : Reach (new_with_target ws t) s) (c : Char) :
    cluesVal s.clues c = historyMax c s.guesses := by
  induction h with
  | refl => simp [new_with_target, cluesVal, historyMax, RES_DEFAULT]
  | step i hr ih =>
    rename_i s'
    cases i with
    | Input c0 => simp only [handle_input]; split_ifs <;> simpa using ih
    | Delete => simp only [handle_input]; split_ifs <;> simpa using ih
    | Submit =>
      simp only [handle_input]
      split_ifs with h1
      · rw [process_guess_eq]
        split_ifs with h2
        · simp only [cluesVal_updateClues, historyMax_append, ih]
        · simpa using ih
      · simpa using ih

/-- Claim C4: along any input sequence the recorded clue of each letter never
decreases, and in every reachable state the clue map holds, for each
letter, the maximum clue that letter has received over all positions of
all history records. -/
theorem clue_monotonicity_and_aggregation :
    (∀ (s : RusdleState) (l : List GameInput) (c : Char),
        cluesVal s.clues c ≤ cluesVal (runInputs s l).clues c) ∧
    (∀ (ws : WordSet) (t : List Char) (s : RusdleState),
        Reach (new_with_target ws t) s →
        ∀ c : Char, cluesVal s.clues c = historyMax c s.guesses) := by
  constructor
  · intro s l
    induction l generalizing s with
    | nil => intro c; exact Nat.le_refl _
    | cons i l ih =>
      intro c
      exact Nat.le_trans (clues_step_mono s i c) (ih (handle_input s i) c)
  · intro ws t s h c
    exact reach_clues_eq_historyMax h c

theorem clue_monotonicity_and_aggregation_witness :
    (cluesVal (new_with_target demoWords demoTarget).clues 'O'
        ≤ cluesVal (runInputs (new_with_target demoWords demoTarget)
            rootyRound).clues 'O') ∧
    cluesVal (runInputs (new_with_target demoWords demoTarget)
        rootyRound).clues 'O'
      = historyMax 'O' (runInputs (new_with_target demoWords demoTarget)
          rootyRound).guesses :=
  ⟨clue_monotonicity_and_aggregation.1 (new_with_target demoWords demoTarget)
      rootyRound 'O',
   clue_monotonicity_and_aggregation.2 demoWords demoTarget _
      (reach_runInputs _ rootyRound _ Reach.refl) 'O'⟩

/-- Claim C2 (counterexample): after six submitted wrong guesses the game is
over, yet the session still accepts typed characters, and one more
Submit appends a seventh history record. -/
theorem submit_after_over_counterexample :
    is_over (runInputs (new_with_target demoWords demoTarget) sixRounds)
        = true ∧
    is_over (runInputs (new_with_target demoWords demoTarget) fortyOneInputs)
        = true ∧
    (handle_input
        (runInputs (new_with_target demoWords demoTarget) fortyOneInputs)
        GameInput.Submit).guesses.length = 7 :=
  ⟨by decide, by decide, by decide⟩

/-- Claim C2 (amended): handle_input(Submit) leaves the state unchanged
whenever the entry is not exactly five characters long - which covers
every state the host can be in right after the game ends, since an
accepted submit clears the entry - and along any run in which inputs are
delivered only while is_over() is false, as the program's event loop
guarantees, the history length never exceeds 6. -/
theorem submit_noop_and_guarded_history_bound :
    (∀ s : RusdleState, s.entry.length ≠ 5 →
        handle_input s GameInput.Submit = s) ∧
    (∀ (ws : WordSet) (t : List Char) (s : RusdleState),
        GuardedReach (new_with_target ws t) s → s.guesses.length ≤ 6) := by
  constructor
  · intro s h
    simp only [handle_input, if_neg h]
  · intro ws t s h
    induction h with
    | refl => simp [new_with_target]
    | step i hr hov ih =>
      rename_i s'
      have hstep := guesses_length_step s' i
      have hne : ¬ s'.guesses.length = 6 := by
        simp [is_over] at hov
        exact hov.1
      omega

theorem submit_noop_and_guarded_history_bound_witness :
    handle_input (new_with_target demoWords demoTarget) GameInput.Submit
        = new_with_target demoWords demoTarget ∧
    (new_with_target demoWords demoTarget).guesses.length ≤ 6 :=
  ⟨submit_noop_and_guarded_history_bound.1 _ (by decide),
   submit_noop_and_guarded_history_bound.2 demoWords demoTarget _
      GuardedReach.refl⟩

/-- Claim C3: submitting a full five-character entry that is not in the corpus
sets last_error to exactly the text Word '<entry>' is not valid. while
leaving entry, history and clues unchanged, and submitting a full valid
entry resets last_error to none. -/
theorem submit_invalid_error_handling :
    (∀ s : RusdleState, s.entry.length = 5 →
        s.words.is_valid s.entry = false →
        (handle_input s GameInput.Submit).last_error
            = some (errorMessage s.entry) ∧
          (handle_input s GameInput.Submit).entry = s.entry ∧
          (handle_input s GameInput.Submit).guesses = s.guesses ∧
          (handle_input s GameInput.Submit).clues = s.clues) ∧
    (∀ s : RusdleState, s.entry.length = 5 →
        s.words.is_valid s.entry = true →
        (handle_input s GameInput.Submit).last_error = none) := by
  constructor
  · intro s h5 hv
    simp only [handle_input, if_pos h5, process_guess_eq, hv]
    simp
  · intro s h5 hv
    simp only [handle_input, if_pos h5, process_guess_eq, hv]
    simp

theorem submit_invalid_error_handling_witness :
    ((handle_input (runInputs (new_with_target demoWords demoTarget) qFive)
          GameInput.Submit).last_error
        = some (errorMessage
            (runInputs (new_with_target demoWords demoTarget) qFive).entry) ∧
      (handle_input (runInputs (new_with_target demoWords demoTarget) qFive)
          GameInput.Submit).entry
        = (runInputs (new_with_target demoWords demoTarget) qFive).entry ∧
      (handle_input (runInputs (new_with_target demoWords demoTarget) qFive)
          GameInput.Submit).guesses
        = (runInputs (new_with_target demoWords demoTarget) qFive).guesses ∧
      (handle_input (runInputs (new_with_target demoWords demoTarget) qFive)
          GameInput.Submit).clues
        = (runInputs (new_with_target demoWords demoTarget) qFive).clues) ∧
    (handle_input (runInputs (new_with_target demoWords demoTarget) rootyFive)
        GameInput.Submit).last_error = none :=
  ⟨submit_invalid_error_handling.1 _ (by decide) (by decide),
   submit_invalid_error_handling.2 _ (by decide) (by decide)⟩

theorem charOfNat_toNat_in_range :
    ∀ m : Nat, m < 91 → 65 ≤ m → (Char.ofNat m).toNat = m := by decide

theorem toAsciiUppercase_alpha (c : Char)
    (h : (97 ≤ c.toNat ∧ c.toNat ≤ 122) ∨ (65 ≤ c.toNat ∧ c.toNat ≤ 90)) :
    65 ≤ (toAsciiUppercase c).toNat ∧ (toAsciiUppercase c).toNat ≤ 90 := by
  unfold toAsciiUppercase
  rcases h with ⟨h1, h2⟩ | ⟨h1, h2⟩
  · rw [if_pos ⟨h1, h2⟩]
    have hr := charOfNat_toNat_in_range (c.toNat - 32) (by omega) (by omega)
    omega
  · rw [if_neg (by omega)]
    exact ⟨h1, h2⟩

/-- Claim C5 (counterexample): handle_input appends any character to a
non-full entry, bytewise-uppercased; the digit 1 enters the entry buffer
of a reachable state even though it is not an ASCII letter A-Z. -/
theorem entry_az_counterexample :
    (handle_input (new_with_target demoWords demoTarget)
        (GameInput.Input '1')).entry = ['1'] ∧
    ¬ (65 ≤ ('1' : Char).toNat ∧ ('1' : Char).toNat ≤ 90) :=
  ⟨by decide, by decide⟩

/-- Claim C5 (amended): in every reachable state the entry holds at most five
characters; Input appends the bytewise-uppercased character whenever the
entry is shorter than five - for any character, and regardless of game
over - and is ignored when the entry is full; and the entry stays within
A-Z as long as the host delivers only ASCII-alphabetic characters, as
the terminal event decoder does. -/
theorem entry_buffer_behavior :
    (∀ (ws : WordSet) (t : List Char) (s : RusdleState),
        Reach (new_with_target ws t) s → s.entry.length ≤ 5) ∧
    (∀ (s : RusdleState) (c : Char), s.entry.length < 5 →
        handle_input s (GameInput.Input c)
          = { s with entry := s.entry ++ [toAsciiUppercase c] }) ∧
    (∀ (s : RusdleState) (c : Char), ¬ s.entry.length < 5 →
        handle_input s (GameInput.Input c) = s) ∧
    (∀ (s : RusdleState) (c : Char),
        (∀ x ∈ s.entry, 65 ≤ x.toNat ∧ x.toNat ≤ 90) →
        ((97 ≤ c.toNat ∧ c.toNat ≤ 122) ∨ (65 ≤ c.toNat ∧ c.toNat ≤ 90)) →
        ∀ x ∈ (handle_input s (GameInput.Input c)).entry,
          65 ≤ x.toNat ∧ x.toNat ≤ 90) := by
  refine ⟨?_, ?_, ?_, ?_⟩
  · intro ws t s h
    exact reach_entry_length h
  · intro s c h
    simp only [handle_input, if_pos h]
  · intro s c h
    simp only [handle_input, if_neg h]
  · intro s c hall hc x hx
    by_cases h5 : s.entry.length < 5
    · simp only [handle_input, if_pos h5] at hx
      simp only [List.mem_append, List.mem_singleton] at hx
      cases hx with
      | inl h => exact hall x h
      | inr h =>
        subst h
        exact toAsciiUppercase_alpha c hc
    · simp only [handle_input, if_neg h5] at hx
      exact hall x hx

theorem entry_buffer_behavior_witness :
    (new_with_target demoWords demoTarget).entry.length ≤ 5 ∧
    handle_input (new_with_target demoWords demoTarget) (GameInput.Input 'r')
        = { new_with_target demoWords demoTarget with
            entry := (new_with_target demoWords demoTarget).entry
              ++ [toAsciiUppercase 'r'] } ∧
    handle_input (runInputs (new_with_target demoWords demoTarget) qFive)
        (GameInput.Input 'r')
      = runInputs (new_with_target demoWords demoTarget) qFive ∧
    (65 ≤ ('R' : Char).toNat ∧ ('R' : Char).toNat ≤ 90) :=
  ⟨entry_buffer_behavior.1 demoWords demoTarget _ Reach.refl,
   entry_buffer_behavior.2.1 _ 'r' (by decide),
   entry_buffer_behavior.2.2.1 _ 'r' (by decide),
   entry_buffer_behavior.2.2.2 (new_with_target demoWords demoTarget) 'r'
      (by decide) (by decide) 'R' (by decide)⟩

/-- Claim C9: compare_guess takes the session by mutable reference but writes
no field: the returned session is the argument unchanged, and the clue
array depends only on the target and the guess. -/
theorem compare_guess_purity :
    (∀ (s : RusdleState) (g : List Char), (compareGuessM s g).2 = s) ∧
    (∀ (s1 s2 : RusdleState) (g : List Char), s1.target = s2.target →
        (compareGuessM s1 g).1 = (compareGuessM s2 g).1) := by
  constructor
  · intro s g
    rfl
  · intro s1 s2 g h
    simp [compareGuessM, h]

theorem compare_guess_purity_witness :
    (compareGuessM (new_with_target demoWords demoTarget) "ROOTY".toList).2
        = new_with_target demoWords demoTarget ∧
    (compareGuessM (handle_input (new_with_target demoWords demoTarget)
          (GameInput.Input 'a')) "ROOTY".toList).1
      = (compareGuessM (new_with_target demoWords demoTarget)
          "ROOTY".toList).1 :=
  ⟨compare_guess_purity.1 _ _, compare_guess_purity.2 _ _ _ (by decide)⟩

theorem compareGuess_all_correct (target guess : List Char)
    (ht : target.length = 5) (hg : guess.length = 5)
    (h : compareGuess target guess = List.replicate 5 RES_CORRECT) :
    guess = target := by
  have hz : zipPass target (unmatchedOf target guess) guess
      = List.replicate guess.length RES_CORRECT := by
    rw [← compareGuess_eq_zipPass, h, hg]
  exact zipPass_all_correct guess target (unmatchedOf target guess)
    (by omega) hz

/-- Claim C10: an all-Correct clue vector forces the guess to equal the
target, and a winning reachable session's last history record is the
target word with five Correct clues. -/
theorem win_only_on_target :
    (∀ (target guess : List Char), target.length = 5 → guess.length = 5 →
        compareGuess target guess = List.replicate 5 RES_CORRECT →
        guess = target) ∧
    (∀ (ws : WordSet) (t : List Char) (s : RusdleState), t.length = 5 →
        Reach (new_with_target ws t) s → is_win s = true →
        s.guesses.getLast? = some (t, List.replicate 5 RES_CORRECT)) := by
  constructor
  · intro target guess ht hg h
    exact compareGuess_all_correct target guess ht hg h
  · intro ws t s ht hr hw
    obtain ⟨hT, hG⟩ := reach_target_and_guesses hr
    unfold is_win at hw
    cases hL : s.guesses.getLast? with
    | none => rw [hL] at hw; simp at hw
    | some gr =>
      obtain ⟨g, r⟩ := gr
      rw [hL] at hw
      have hreq : r = List.replicate 5 RES_CORRECT := by
        simpa using hw
      have hmem : (g, r) ∈ s.guesses := List.mem_of_mem_getLast? hL
      obtain ⟨hcomp, hglen⟩ := hG (g, r) hmem
      have hgt : g = t :=
        compareGuess_all_correct t g ht hglen (by rw [← hcomp, hreq])
      rw [hgt, hreq]

theorem win_only_on_target_witness :
    ("MATCH".toList = "MATCH".toList) ∧
    (runInputs (new_with_target demoWords demoTarget)
        winRound).guesses.getLast?
      = some (demoTarget, List.replicate 5 RES_CORRECT) :=
  ⟨win_only_on_target.1 "MATCH".toList "MATCH".toList (by decide) (by decide)
      (by decide),
   win_only_on_target.2 demoWords demoTarget _ (by decide)
      (reach_runInputs _ winRound _ Reach.refl) (by decide)⟩

theorem tdiv_natCast_86400 (m : Nat) :
    Int.tdiv (m : Int) (86400 : Int) = ((m / 86400 : Nat) : Int) := rfl

theorem fdiv_natCast_86400 (m : Nat) :
    Int.fdiv (m : Int) (86400 : Int) = ((m / 86400 : Nat) : Int) := by
  cases m with
  | zero => rfl
  | succ m => rfl

/-- Claim C6 (counterexample): with the clock one day and one second before
the epoch, Rust's toward-zero division gives day index -1 and the
`as usize` wrap turns it into 2^64 - 1, selecting word 0 of a
three-word list, while the spec's floored division gives index -2,
whose nonnegative remainder selects word 1. -/
theorem word_of_the_day_counterexample :
    threeWords.word_of_the_day (-86401) 0 = some "AAAAA".toList ∧
    specWordOfTheDay threeWords (-86401) 0 = some "BBBBB".toList ∧
    threeWords.word_of_the_day (-86401) 0
      ≠ specWordOfTheDay threeWords (-86401) 0 :=
  ⟨by decide, by decide, by decide⟩

/-- Claim C6 (amended): whenever today is not before the epoch (and the
difference stays inside the i64 range), the code's toward-zero division
and usize cast agree with the spec's floored-division formula
solutions[((today − EPOCH) ÷ 86400) mod |solutions|], uppercased; for
clock readings before the epoch the two differ. -/
theorem word_of_the_day_formula (ws : WordSet) (t e : Int)
    (hte : e ≤ t) (hbound : t - e < 2 ^ 63) :
    ws.word_of_the_day t e = specWordOfTheDay ws t e := by
  obtain ⟨n, hn⟩ : ∃ n : Nat, t - e = (n : Int) :=
    ⟨(t - e).toNat, (Int.toNat_of_nonneg (by omega)).symm⟩
  unfold WordSet.word_of_the_day specWordOfTheDay i64ToUsize
  rw [hn, tdiv_natCast_86400, fdiv_natCast_86400]
  dsimp only
  have hk64 : ((n / 86400 : Nat) : Int) < (2 : Int) ^ 64 := by
    have hn63 : (n : Int) < (2 : Int) ^ 63 := by rw [← hn]; exact hbound
    have hle : (n / 86400 : Nat) ≤ n := Nat.div_le_self n 86400
    have h2 : ((n / 86400 : Nat) : Int) ≤ (n : Int) := by exact_mod_cast hle
    have h3 : (2 : Int) ^ 63 < (2 : Int) ^ 64 := by norm_num
    omega
  rw [Int.emod_eq_of_lt (Int.natCast_nonneg _) hk64, Int.toNat_natCast,
    ← Int.natCast_mod, Int.toNat_natCast]

theorem word_of_the_day_formula_witness :
    ((0 : Int) ≤ 259205) ∧ ((259205 : Int) - 0 < 2 ^ 63) ∧
      threeWords.word_of_the_day 259205 0 = specWordOfTheDay threeWords 259205 0 :=
  ⟨by decide, by decide, word_of_the_day_formula threeWords 259205 0
      (by decide) (by decide)⟩
